import Mathlib

/-!
Verification of the RHF-FormGenerator core (src/app/_client/home-page/index.tsx).

The embedding models the field-definition data model, the rule interpreter
used by the preview (`rules.includes("required")`), the valid-field
projection (`previewSchema.filter((field) => field.name.trim())`), the
export path (zod schema validation followed by JSON serialization of the
parsed data, which strips the field identity), the preview form instance
state (default values and typed values keyed by field name), and the
field-array store operations (append / remove by position).
-/

namespace FormGen

/-- Enumeration of field input types, mirroring `type: 'text' | 'email' | 'number'`. -/
inductive FieldType where
  | text
  | email
  | number
deriving DecidableEq, Repr

/-- One field descriptor row, mirroring the TS `Field` type
`{ name: string; type: ...; label: string; rules: string; id?: string }`. -/
structure Field where
  name : String
  type : FieldType
  label : String
  rules : String
  id : Option String := none
deriving DecidableEq, Repr

/-- Resolver choice, mirroring `resolver: 'zod' | 'joi'`. -/
inductive ResolverKind where
  | zod
  | joi
deriving DecidableEq, Repr

/-- UI library choice, mirroring `uiLib: 'shadcn' | 'mui' | 'chakra'`. -/
inductive UiLibKind where
  | shadcn
  | mui
  | chakra
deriving DecidableEq, Repr

/-- The full form-definition value, mirroring the TS `FormData` type. -/
structure FormData where
  fields : List Field
  resolver : ResolverKind
  uiLib : UiLibKind
deriving DecidableEq, Repr

/-! ### JavaScript string primitives used by the component -/

/-- Boolean test that `pat` is a prefix of `s`, over character lists. -/
def isPrefixList : List Char → List Char → Bool
  | [], _ => true
  | _ :: _, [] => false
  | p :: ps, c :: cs => p == c && isPrefixList ps cs

/-- Boolean substring search: `containsSub pat s` holds when `pat` occurs
contiguously anywhere in `s`. -/
def containsSub (pat : List Char) : List Char → Bool
  | [] => isPrefixList pat []
  | c :: cs => isPrefixList pat (c :: cs) || containsSub pat cs

/-- JavaScript `s.includes(pat)`: case-sensitive substring test. -/
def jsIncludes (s pat : String) : Bool :=
  containsSub pat.data s.data

/-- JavaScript `s.trim()`: removes whitespace from both ends of the string. -/
def jsTrim (s : String) : String :=
  String.mk (((s.data.dropWhile Char.isWhitespace).reverse.dropWhile
    Char.isWhitespace).reverse)

/-! ### RuleInterpreter -/

/-- The rule interpreter used when registering a preview control:
`field.rules?.includes('required') || false` (index.tsx line 104). `rules`
is a total `string` in the TS type, so the optional chaining always takes
the string branch. -/
def interpretRequired (rules : String) : Bool :=
  jsIncludes rules "required" || false

/-! ### ValidDefinitionProjection -/

/-- The projection of the editor's field list to the fields rendered in the
preview: `previewSchema.filter((field) => field.name.trim())`
(index.tsx line 55); a JS string is truthy exactly when it is non-empty. -/
def validFields (previewSchema : List Field) : List Field :=
  previewSchema.filter (fun field => jsTrim field.name ≠ "")

/-! ### Lemmas about the substring test -/

theorem isPrefixList_iff (pat : List Char) :
    ∀ s : List Char, isPrefixList pat s = true ↔ ∃ r, s = pat ++ r := by
  induction pat with
  | nil =>
    intro s
    simp [isPrefixList]
  | cons p ps ih =>
    intro s
    cases s with
    | nil =>
      simp [isPrefixList]
    | cons c cs =>
      simp only [isPrefixList, Bool.and_eq_true, beq_iff_eq, ih cs]
      constructor
      · rintro ⟨hpc, r, hr⟩
        exact ⟨r, by simp [hpc, hr]⟩
      · rintro ⟨r, hr⟩
        rw [List.cons_append] at hr
        injection hr with h1 h2
        exact ⟨h1.symm, r, h2⟩

theorem containsSub_iff (pat : List Char) :
    ∀ s : List Char, containsSub pat s = true ↔ ∃ l r, s = l ++ pat ++ r := by
  intro s
  induction s with
  | nil =>
    simp only [containsSub, isPrefixList_iff]
    constructor
    · rintro ⟨r, hr⟩
      exact ⟨[], r, by simpa using hr⟩
    · rintro ⟨l, r, hr⟩
      have h1 : l ++ (pat ++ r) = [] := by simpa using hr.symm
      have h2 := List.append_eq_nil.mp (List.append_eq_nil.mp h1).2
      exact ⟨[], by simp [h2.1]⟩
  | cons c cs ih =>
    simp only [containsSub, Bool.or_eq_true, isPrefixList_iff, ih]
    constructor
    · rintro (⟨r, hr⟩ | ⟨l, r, hr⟩)
      · exact ⟨[], r, by simpa using hr⟩
      · exact ⟨c :: l, r, by simp [hr]⟩
    · rintro ⟨l, r, hr⟩
      cases l with
      | nil =>
        exact Or.inl ⟨r, by simpa using hr⟩
      | cons d l2 =>
        rw [List.cons_append, List.cons_append] at hr
        injection hr with h1 h2
        exact Or.inr ⟨l2, r, h2⟩

/-!  ### C2 and C3 -/

/-- C2: for every string `s`, the interpreter yields `required = true`
exactly when `s` contains the literal substring `"required"` somewhere
(case-sensitive); in particular `"required-ish"` and `"notrequired"` both
yield `true` and the empty string yields `false`. The interpretation is a
total function. -/
theorem interpret_required_spec (s : String) :
    (interpretRequired s = true ↔ ∃ l r, s.data = l ++ "required".data ++ r) ∧
    interpretRequired "" = false ∧
    interpretRequired "required-ish" = true ∧
    interpretRequired "notrequired" = true := by
  refine ⟨?_, by decide, by decide, by decide⟩
  simp only [interpretRequired, jsIncludes, Bool.or_false]
  exact containsSub_iff _ _

/-- C3: the projection returns exactly the ordered subsequence of fields
whose trimmed name is non-empty: it is a sublist of the input (relative
order preserved), membership holds exactly for fields with non-blank
trimmed name, its length counts exactly those fields, and it is stable
under re-invocation. -/
theorem valid_definition_projection_spec (fs : List Field) :
    (validFields fs).Sublist fs ∧
    (∀ f, f ∈ validFields fs ↔ f ∈ fs ∧ jsTrim f.name ≠ "") ∧
    (validFields fs).length = fs.countP (fun f => jsTrim f.name ≠ "") ∧
    validFields (validFields fs) = validFields fs := by
  refine ⟨List.filter_sublist fs, ?_, ?_, ?_⟩
  · intro f
    simp [validFields, List.mem_filter]
  · simp [validFields, List.countP_eq_length_filter]
  · simp [validFields, List.filter_filter]

/-! ### ExportSerializer: the zod schema and the serialized payload

The export button runs `form.handleSubmit(onSubmit)` with
`zodResolver(schema)` (index.tsx lines 124-125, 171). The zod object
schema checks `name: z.string().min(1, ...)`, `label: z.string().min(1, ...)`
per field and strips keys not in the shape (so the optional `id` is
dropped); on success the resolver hands the parsed data to `onSubmit`,
which stringifies it, keys in shape order. -/

/-- A field as it appears in the zod parse result: the shape keys
`name, type, label, rules` in order, with `id` stripped. -/
structure ParsedField where
  name : String
  type : FieldType
  label : String
  rules : String
deriving DecidableEq, Repr

/-- The zod parse result for the whole form value. -/
structure ParsedForm where
  fields : List ParsedField
  resolver : ResolverKind
  uiLib : UiLibKind
deriving DecidableEq, Repr

/-- One per-field structural validation issue (field index, offending key,
message), as produced by the zod schema's `min(1, message)` checks. -/
structure FieldIssue where
  index : Nat
  key : String
  message : String
deriving DecidableEq, Repr

/-- The `min(1, message)` checks of the per-field zod object
(index.tsx lines 34-39); `type` and the enum fields are well-typed in the
embedding, so only the two string length checks can fail. -/
def checkField (i : Nat) (f : Field) : List FieldIssue :=
  (if 1 ≤ f.name.length then [] else [⟨i, "name", "Название поля обязательно"⟩]) ++
  (if 1 ≤ f.label.length then [] else [⟨i, "label", "Label обязателен"⟩])

/-- All structural issues of the field array, indexed from `i`. -/
def collectIssues : Nat → List Field → List FieldIssue
  | _, [] => []
  | i, f :: rest => checkField i f ++ collectIssues (i + 1) rest

/-- Parsing one field through the zod object shape keeps exactly the shape
keys and drops the extra `id` key (zod strips unknown keys by default). -/
def stripId (f : Field) : ParsedField :=
  ⟨f.name, f.type, f.label, f.rules⟩

/-- The zod schema applied to the full form value: on success the parsed
data (identity stripped), on failure the list of per-field issues. -/
def schemaParse (d : FormData) : Except (List FieldIssue) ParsedForm :=
  match collectIssues 0 d.fields with
  | [] => Except.ok ⟨d.fields.map stripId, d.resolver, d.uiLib⟩
  | e :: es => Except.error (e :: es)

/-- Ordered JSON values, modelling `JSON.stringify` input structure: object
member order is the JS key insertion order. -/
inductive Json where
  | str : String → Json
  | arr : List Json → Json
  | obj : List (String × Json) → Json

/-- Serialization of a field type enum value. -/
def FieldType.text_ : FieldType → String
  | .text => "text"
  | .email => "email"
  | .number => "number"

/-- Serialization of a resolver kind. -/
def ResolverKind.text_ : ResolverKind → String
  | .zod => "zod"
  | .joi => "joi"

/-- Serialization of a UI library kind. -/
def UiLibKind.text_ : UiLibKind → String
  | .shadcn => "shadcn"
  | .mui => "mui"
  | .chakra => "chakra"

/-- The JSON object serialized for one parsed field: keys
`name, type, label, rules` in that order, no identity. -/
def fieldJson (f : ParsedField) : Json :=
  Json.obj [("name", Json.str f.name), ("type", Json.str f.type.text_),
    ("label", Json.str f.label), ("rules", Json.str f.rules)]

/-- The JSON object serialized by `onSubmit` for the parsed form: keys
`fields, resolver, uiLib` in that order. -/
def payloadJson (p : ParsedForm) : Json :=
  Json.obj [("fields", Json.arr (p.fields.map fieldJson)),
    ("resolver", Json.str p.resolver.text_),
    ("uiLib", Json.str p.uiLib.text_)]

/-- The whole export path: validate through the zod schema, then serialize
the parsed data. -/
def exportDefinition (d : FormData) : Except (List FieldIssue) Json :=
  (schemaParse d).map payloadJson

/-- `form.handleSubmit(onSubmit)`: on success `onSubmit` writes the payload
to the clipboard; on failure `onSubmit` never runs and nothing is written.
The result pairs the optional clipboard write with the (unchanged) store. -/
def handleSubmitExport (d : FormData) : Option Json × FormData :=
  match exportDefinition d with
  | Except.ok j => (some j, d)
  | Except.error _ => (none, d)

/-- The member keys of a JSON object, in serialization order. -/
def jsonKeys : Json → List String
  | Json.obj kvs => kvs.map Prod.fst
  | _ => []

/-- The elements of the `fields` array of an export payload. -/
def fieldMembers : Json → List Json
  | Json.obj (("fields", Json.arr xs) :: _) => xs
  | _ => []

/-- The seed field of the initial store (index.tsx lines 128-134). -/
def seedField : Field :=
  { name := "email", type := .email, label := "Email",
    rules := "email() | required()", id := some "1" }

/-- The initial seed FormDefinition (index.tsx lines 126-138). -/
def seedDefinition : FormData :=
  ⟨[seedField], ResolverKind.zod, UiLibKind.shadcn⟩

/-- The expected export payload of the seed definition. -/
def seedPayload : Json :=
  Json.obj [("fields", Json.arr [Json.obj [("name", Json.str "email"),
    ("type", Json.str "email"), ("label", Json.str "Email"),
    ("rules", Json.str "email() | required()")]]),
    ("resolver", Json.str "zod"), ("uiLib", Json.str "shadcn")]

/-- C1: exporting the seed definition yields exactly the payload object
with keys `fields, resolver, uiLib`, one field object with keys
`name, type, label, rules` in that order; and for every FormDefinition,
every field object of a successful export payload has exactly those keys
(the identity is never included). -/
theorem export_seed_spec :
    exportDefinition seedDefinition = Except.ok seedPayload ∧
    (∀ (d : FormData) (j : Json), exportDefinition d = Except.ok j →
      ∀ m ∈ fieldMembers j, jsonKeys m = ["name", "type", "label", "rules"]) := by
  constructor
  · rfl
  · intro d j hj m hm
    unfold exportDefinition at hj
    cases hp : schemaParse d with
    | error e =>
      rw [hp] at hj
      simp [Except.map] at hj
    | ok p =>
      rw [hp] at hj
      simp only [Except.map, Except.ok.injEq] at hj
      subst hj
      have hfm : fieldMembers (payloadJson p) = p.fields.map fieldJson := rfl
      rw [hfm] at hm
      rcases List.mem_map.mp hm with ⟨f, hf, rfl⟩
      rfl

/-- Witness for C1: the seed export payload's single field object has
exactly the four shape keys. -/
theorem export_seed_spec_witness :
    jsonKeys (Json.obj [("name", Json.str "email"), ("type", Json.str "email"),
      ("label", Json.str "Email"), ("rules", Json.str "email() | required()")]) =
      ["name", "type", "label", "rules"] :=
  export_seed_spec.2 seedDefinition seedPayload export_seed_spec.1 _
    (List.mem_singleton.mpr rfl)

/-- A blank name or label of a field in the list leaves a matching
per-field issue in the collected issue list, whatever the start index. -/
theorem mem_collectIssues_of_blank :
    ∀ (fs : List Field) (i : Nat) (f : Field), f ∈ fs →
      (f.name = "" ∨ f.label = "") →
      ∃ e ∈ collectIssues i fs,
        ((e.key = "name" ∧ e.message = "Название поля обязательно") ∨
         (e.key = "label" ∧ e.message = "Label обязателен")) := by
  intro fs
  induction fs with
  | nil =>
    intro i f hf
    exact absurd hf (List.not_mem_nil f)
  | cons g rest ih =>
    intro i f hf hblank
    rcases List.mem_cons.mp hf with hfg | hfr
    · subst hfg
      rcases hblank with hname | hlabel
      · refine ⟨⟨i, "name", "Название поля обязательно"⟩, ?_, Or.inl ⟨rfl, rfl⟩⟩
        have : (1 ≤ f.name.length) = False := by
          simp [hname]
        simp [collectIssues, checkField, this]
      · refine ⟨⟨i, "label", "Label обязателен"⟩, ?_, Or.inr ⟨rfl, rfl⟩⟩
        have : (1 ≤ f.label.length) = False := by
          simp [hlabel]
        simp [collectIssues, checkField, this]
    · obtain ⟨e, he, hp⟩ := ih (i + 1) f hfr hblank
      exact ⟨e, List.mem_append_right _ he, hp⟩

/-- C5: if some field has an empty name or an empty label, export fails
with a per-field structural issue naming that key, the clipboard write is
not performed, and the store is unchanged. -/
theorem export_blank_field_fails (d : FormData)
    (h : ∃ f ∈ d.fields, f.name = "" ∨ f.label = "") :
    (∃ errs, exportDefinition d = Except.error errs ∧
      ∃ e ∈ errs,
        ((e.key = "name" ∧ e.message = "Название поля обязательно") ∨
         (e.key = "label" ∧ e.message = "Label обязателен"))) ∧
    handleSubmitExport d = (none, d) := by
  obtain ⟨f, hf, hblank⟩ := h
  obtain ⟨e, he, hprop⟩ := mem_collectIssues_of_blank d.fields 0 f hf hblank
  cases hc : collectIssues 0 d.fields with
  | nil =>
    rw [hc] at he
    exact absurd he (List.not_mem_nil e)
  | cons e0 es =>
    have hs : schemaParse d = Except.error (e0 :: es) := by
      unfold schemaParse
      rw [hc]
    rw [hc] at he
    refine ⟨⟨e0 :: es, ?_, e, he, hprop⟩, ?_⟩
    · simp [exportDefinition, hs, Except.map]
    · simp [handleSubmitExport, exportDefinition, hs, Except.map]

/-- The field whose name and label are both empty, as appended by the
`+ Добавить поле` button (index.tsx lines 289-296). -/
def blankField : Field :=
  { name := "", type := FieldType.text, label := "", rules := "" }

/-- A definition holding one blank field. -/
def blankDefinition : FormData :=
  ⟨[blankField], ResolverKind.zod, UiLibKind.shadcn⟩

/-- Witness for C5: exporting a definition with a blank field writes
nothing to the clipboard and leaves the store unchanged. -/
theorem export_blank_field_fails_witness :
    handleSubmitExport blankDefinition = (none, blankDefinition) :=
  (export_blank_field_fails blankDefinition
    ⟨blankField, List.mem_singleton.mpr rfl, Or.inl rfl⟩).2

/-- C6: structural validation is independent of the resolver choice: with
the same fields and UI library, the joi-flavoured definition parses to
exactly the zod one's result with the resolver swapped (so success/failure
and the per-field issues agree), and success of export is the same
boolean either way; the resolver is carried through as data only. -/
theorem export_resolver_independent (fields0 : List Field) (ui : UiLibKind) :
    schemaParse ⟨fields0, ResolverKind.joi, ui⟩ =
      (schemaParse ⟨fields0, ResolverKind.zod, ui⟩).map
        (fun p => { p with resolver := ResolverKind.joi }) ∧
    (exportDefinition ⟨fields0, ResolverKind.zod, ui⟩).isOk =
      (exportDefinition ⟨fields0, ResolverKind.joi, ui⟩).isOk ∧
    (∀ errs, exportDefinition ⟨fields0, ResolverKind.zod, ui⟩ = Except.error errs ↔
      exportDefinition ⟨fields0, ResolverKind.joi, ui⟩ = Except.error errs) := by
  cases hc : collectIssues 0 fields0 with
  | nil =>
    refine ⟨?_, ?_, ?_⟩ <;>
      simp [schemaParse, exportDefinition, hc, Except.map, Except.isOk,
        Except.toBool]
  | cons e0 es =>
    refine ⟨?_, ?_, ?_⟩ <;>
      simp [schemaParse, exportDefinition, hc, Except.map, Except.isOk,
        Except.toBool]

/-- A field whose name is whitespace only. -/
def whitespaceField : Field :=
  { name := " ", type := FieldType.text, label := "Whitespace label",
    rules := "" }

/-- A definition holding one whitespace-named field. -/
def whitespaceDefinition : FormData :=
  ⟨[whitespaceField], ResolverKind.zod, UiLibKind.shadcn⟩

/-- C9: a field whose name is only whitespace passes export-time
structural validation (the length check runs on the untrimmed string),
yet the very same field is excluded from the projection and never
rendered in the preview. -/
theorem whitespace_name_exports_but_hidden :
    (exportDefinition whitespaceDefinition).isOk = true ∧
    validFields [whitespaceField] = [] := by
  exact ⟨rfl, by decide⟩

/-! ### FieldDefinitionStore: the useFieldArray operations

`useFieldArray` keeps the ordered field rows; each row carries a stable
key minted at insertion (index.tsx lines 141-144). `append` inserts at
the end with a fresh key (lines 289-296); `remove(idx)` drops the row at
the position and is a no-op out of range (line 277). -/

/-- One store row: the minted stable identity plus the field value. -/
structure Row where
  identity : Nat
  field : Field
deriving DecidableEq, Repr

/-- The field-array store: ordered rows plus the next fresh identity. -/
structure Store where
  rows : List Row
  nextId : Nat
deriving DecidableEq, Repr

/-- `append(field)`: insert at the end with a freshly minted identity. -/
def Store.append (st : Store) (f : Field) : Store :=
  ⟨st.rows ++ [⟨st.nextId, f⟩], st.nextId + 1⟩

/-- `remove(pos)`: drop the row at the position; `eraseIdx` leaves the
list unchanged when the position is out of range, matching the no-op. -/
def Store.removeAt (st : Store) (pos : Nat) : Store :=
  ⟨st.rows.eraseIdx pos, st.nextId⟩

/-- C7: appending any new field and then removing at the last index
restores the prior sequence content: the remaining rows carry exactly the
original field values in the original order (identities aside). -/
theorem append_remove_restores_content (st : Store) (f : Field) :
    ((st.append f).removeAt st.rows.length).rows.map Row.field =
      st.rows.map Row.field := by
  simp [Store.append, Store.removeAt,
    List.eraseIdx_append_of_length_le (Nat.le_refl st.rows.length)]

/-- Erasing an index commutes with mapping over the list. -/
theorem map_eraseIdx_comm {α β : Type} (g : α → β) :
    ∀ (l : List α) (n : Nat), (l.eraseIdx n).map g = (l.map g).eraseIdx n := by
  intro l
  induction l with
  | nil =>
    intro n
    simp [List.eraseIdx]
  | cons a l ih =>
    intro n
    cases n with
    | zero => simp [List.eraseIdx]
    | succ m => simp [List.eraseIdx, ih m]

/-- C8: `removeAt` on an out-of-range position leaves the store exactly
unchanged (a silent no-op, no error), and any removal leaves the
remaining rows with their original identities, never renumbered: the
identity sequence after removal is the original one with the erased
position dropped. -/
theorem removeAt_out_of_range_spec (st : Store) (pos : Nat) :
    (st.rows.length ≤ pos → st.removeAt pos = st) ∧
    (st.removeAt pos).rows.map Row.identity =
      (st.rows.map Row.identity).eraseIdx pos := by
  constructor
  · intro h
    cases st with
    | mk rows nextId =>
      simp only [Store.removeAt]
      rw [List.eraseIdx_of_length_le h]
  · simp [Store.removeAt, map_eraseIdx_comm]

/-- A plain sample field used to instantiate store and preview witnesses. -/
def sampleField : Field :=
  { name := "sample", type := FieldType.text, label := "Sample", rules := "" }

/-- A one-row sample store. -/
def storeEx : Store := ⟨[⟨0, sampleField⟩], 1⟩

/-- Witness for C8: removing position 5 from a one-row store changes
nothing. -/
theorem removeAt_out_of_range_witness :
    storeEx.removeAt 5 = storeEx :=
  (removeAt_out_of_range_spec storeEx 5).1 (by decide)

/-! ### PreviewFormInstance: default values and typed values

The preview computes `defaultValues` by folding the valid fields into a
JS object keyed by `field.name` with value `''` (index.tsx lines 58-64),
hands it to `useForm` once at mount, and registers each control under
`field.name` (line 103). `useForm` keeps its own value state across
re-renders: recomputed default values are not re-applied, and a control
registered under a key absent from the value state reads the empty
string. -/

/-- JS object key insertion for the `defaultValues` reduce: a later
assignment to an existing key keeps the key's first position (and here
always writes the same `''`), a new key is appended. -/
def insKey (acc : List String) (n : String) : List String :=
  if n ∈ acc then acc else acc ++ [n]

/-- The key list of the `defaultValues` object built from a field list. -/
def defaultKeys (fs : List Field) : List String :=
  fs.foldl (fun acc f => insKey acc f.name) []

/-- The mounted preview form's state: the mount-time default values and
the current value map, both keyed by field name. -/
structure PreviewState where
  defaults : List (String × String)
  values : List (String × String)
deriving DecidableEq, Repr

/-- Mounting the preview: defaults are the projection's names each mapped
to `''`, and the form's value state starts as the defaults. -/
def mountPreview (previewSchema : List Field) : PreviewState :=
  let d := (defaultKeys (validFields previewSchema)).map (fun n => (n, ""))
  ⟨d, d⟩

/-- The string shown by a control registered under `key`: the stored
value when present, the empty string otherwise. -/
def readValue (st : PreviewState) (key : String) : String :=
  (st.values.lookup key).getD ""

/-- Replace the value at a key in the value map, appending when absent. -/
def updateAssoc : List (String × String) → String → String → List (String × String)
  | [], k, v => [(k, v)]
  | (k0, v0) :: rest, k, v =>
    if k0 = k then (k, v) :: rest else (k0, v0) :: updateAssoc rest k v

/-- The user types `v` into the control registered under `key`. -/
def typeValue (st : PreviewState) (key v : String) : PreviewState :=
  { st with values := updateAssoc st.values key v }

/-- The whole mounted page: the editor's field list plus the mounted
preview instance. -/
structure SystemState where
  editorFields : List Field
  preview : PreviewState
deriving DecidableEq, Repr

/-- Initial mount from a field list. -/
def mountSystem (fs : List Field) : SystemState :=
  ⟨fs, mountPreview fs⟩

/-- Renaming the field at `idx` in the editor while the preview stays
mounted: only the editor list changes; `useForm` keeps its value state
(recomputed defaults are not re-applied after mount). -/
def renameAt (sys : SystemState) (idx : Nat) (newName : String) : SystemState :=
  match sys.editorFields[idx]? with
  | some f => ⟨sys.editorFields.set idx { f with name := newName }, sys.preview⟩
  | none => sys

/-- Typing into a preview control at the system level. -/
def typeIntoPreview (sys : SystemState) (key v : String) : SystemState :=
  ⟨sys.editorFields, typeValue sys.preview key v⟩

/-- C4 (amended): renaming a field while the preview is mounted leaves
the whole preview value map unchanged — the value typed under the old
name stays orphaned there and is not copied to the new key — and,
provided no value entry already exists under the new name, the control
registered under the new key reads the empty string. -/
theorem rename_orphans_previous_value (sys : SystemState) (idx : Nat)
    (newName : String) (h : sys.preview.values.lookup newName = none) :
    (renameAt sys idx newName).preview.values = sys.preview.values ∧
    readValue (renameAt sys idx newName).preview newName = "" := by
  have hp : (renameAt sys idx newName).preview = sys.preview := by
    unfold renameAt
    cases sys.editorFields[idx]? <;> rfl
  refine ⟨by rw [hp], ?_⟩
  rw [hp]
  simp [readValue, h]

/-- A field named `a`, for the preview rename scenarios. -/
def fieldA : Field :=
  { name := "a", type := FieldType.text, label := "A", rules := "" }

/-- A field named `b`, for the preview rename scenarios. -/
def fieldB : Field :=
  { name := "b", type := FieldType.text, label := "B", rules := "" }

/-- Witness for C4 (amended): renaming the only field from `a` to the
fresh name `b` keeps the value map and shows an empty string under `b`. -/
theorem rename_orphans_previous_value_witness :
    (renameAt (mountSystem [fieldA]) 0 "b").preview.values =
      (mountSystem [fieldA]).preview.values ∧
    readValue (renameAt (mountSystem [fieldA]) 0 "b").preview "b" = "" :=
  rename_orphans_previous_value (mountSystem [fieldA]) 0 "b" (by decide)

/-- The mounted system after typing `x` under the existing name `b` and
then renaming the first field (named `a`) to `b`. -/
def collidedSystem : SystemState :=
  renameAt (typeIntoPreview (mountSystem [fieldA, fieldB]) "b" "x") 0 "b"

/-- Counterexample for C4 as stated: with fields `a` and `b` mounted and
the value `x` already typed under `b`, renaming field `a` to `b` leaves
the control registered under the new key reading `x`, not the empty
string. -/
theorem rename_counterexample :
    readValue collidedSystem.preview "b" = "x" ∧ ("x" : String) ≠ "" := by
  decide

/-! ### Lemmas about the defaultValues key fold -/

/-- Inserting a key grows the key list by at most one. -/
theorem length_insKey_le (acc : List String) (n : String) :
    (insKey acc n).length ≤ acc.length + 1 := by
  unfold insKey
  split
  · exact Nat.le_succ _
  · simp

/-- The key fold keeps the key list duplicate-free. -/
theorem foldl_insKey_nodup (fs : List Field) :
    ∀ acc : List String, acc.Nodup →
      (fs.foldl (fun a f => insKey a f.name) acc).Nodup := by
  induction fs with
  | nil =>
    intro acc h
    simpa using h
  | cons g rest ih =>
    intro acc h
    simp only [List.foldl_cons]
    apply ih
    unfold insKey
    split
    · exact h
    · case _ hmem =>
      rw [List.nodup_append]
      exact ⟨h, List.nodup_singleton _, by simp [List.disjoint_singleton, hmem]⟩

/-- Membership in the folded key list is membership in the accumulator or
among the folded fields' names. -/
theorem mem_foldl_insKey (fs : List Field) :
    ∀ (acc : List String) (n : String),
      n ∈ fs.foldl (fun a f => insKey a f.name) acc ↔
        n ∈ acc ∨ n ∈ fs.map Field.name := by
  induction fs with
  | nil =>
    intro acc n
    simp
  | cons g rest ih =>
    intro acc n
    simp only [List.foldl_cons, ih, List.map_cons, List.mem_cons]
    unfold insKey
    split
    · case _ hmem =>
      constructor
      · rintro (h | h)
        · exact Or.inl h
        · exact Or.inr (Or.inr h)
      · rintro (h | h | h)
        · exact Or.inl h
        · exact Or.inl (h ▸ hmem)
        · exact Or.inr h
    · case _ hmem =>
      simp only [List.mem_append, List.mem_singleton]
      tauto

/-- The folded key list never exceeds accumulator plus field count. -/
theorem length_foldl_insKey_le (fs : List Field) :
    ∀ acc : List String,
      (fs.foldl (fun a f => insKey a f.name) acc).length ≤
        acc.length + fs.length := by
  induction fs with
  | nil =>
    intro acc
    simp
  | cons g rest ih =>
    intro acc
    simp only [List.foldl_cons, List.length_cons]
    have h1 := ih (insKey acc g.name)
    have h2 := length_insKey_le acc g.name
    omega

/-- If some folded field's name is already in the accumulator, the folded
key list is strictly shorter than accumulator plus field count. -/
theorem length_foldl_insKey_lt_of_mem (fs : List Field) :
    ∀ acc : List String, (∃ f ∈ fs, f.name ∈ acc) →
      (fs.foldl (fun a f => insKey a f.name) acc).length <
        acc.length + fs.length := by
  induction fs with
  | nil =>
    intro acc h
    rcases h with ⟨f, hf, _⟩
    exact absurd hf (List.not_mem_nil f)
  | cons g rest ih =>
    rintro acc ⟨f, hf, hacc⟩
    simp only [List.foldl_cons, List.length_cons]
    rcases List.mem_cons.mp hf with rfl | hfr
    · have hik : insKey acc f.name = acc := by
        unfold insKey
        simp [hacc]
      rw [hik]
      have := length_foldl_insKey_le rest acc
      omega
    · have hsub : f.name ∈ insKey acc g.name := by
        unfold insKey
        split
        · exact hacc
        · exact List.mem_append_left _ hacc
      have hlt := ih (insKey acc g.name) ⟨f, hfr, hsub⟩
      have hlen := length_insKey_le acc g.name
      omega

/-- Duplicate names among the folded fields force a strictly shorter key
list. -/
theorem length_foldl_insKey_lt_of_dup (fs : List Field) :
    ¬ (fs.map Field.name).Nodup →
    ∀ acc : List String,
      (fs.foldl (fun a f => insKey a f.name) acc).length <
        acc.length + fs.length := by
  induction fs with
  | nil =>
    intro h
    simp at h
  | cons g rest ih =>
    intro h acc
    by_cases hmem : g.name ∈ rest.map Field.name
    · rcases List.mem_map.mp hmem with ⟨f, hfr, hfname⟩
      have hsub : f.name ∈ insKey acc g.name := by
        rw [hfname]
        unfold insKey
        split
        · assumption
        · exact List.mem_append_right _ (List.mem_singleton.mpr rfl)
      simp only [List.foldl_cons, List.length_cons]
      have hlt := length_foldl_insKey_lt_of_mem rest (insKey acc g.name)
        ⟨f, hfr, hsub⟩
      have hlen := length_insKey_le acc g.name
      omega
    · have hrest : ¬ (rest.map Field.name).Nodup := by
        intro hn
        exact h (List.nodup_cons.mpr ⟨hmem, hn⟩)
      simp only [List.foldl_cons, List.length_cons]
      have hlt := ih hrest (insKey acc g.name)
      have hlen := length_insKey_le acc g.name
      omega

/-- C10: when the projection holds two or more valid fields with the same
name, the preview's default-value object has duplicate-free keys — so a
single entry per name, the key set being exactly the set of the fields'
names — and strictly fewer keys than fields; every rendered field
registers its control under its name, which is one of those shared
keys. -/
theorem duplicate_names_share_key (ps : List Field)
    (h : ¬ ((validFields ps).map Field.name).Nodup) :
    (defaultKeys (validFields ps)).Nodup ∧
    (∀ n, n ∈ defaultKeys (validFields ps) ↔
      n ∈ (validFields ps).map Field.name) ∧
    (∀ f ∈ validFields ps, f.name ∈ defaultKeys (validFields ps)) ∧
    (defaultKeys (validFields ps)).length < (validFields ps).length := by
  refine ⟨foldl_insKey_nodup _ [] List.nodup_nil, ?_, ?_, ?_⟩
  · intro n
    simpa using mem_foldl_insKey (validFields ps) [] n
  · intro f hf
    have := mem_foldl_insKey (validFields ps) [] f.name
    exact this.mpr (Or.inr (List.mem_map.mpr ⟨f, hf, rfl⟩))
  · simpa using length_foldl_insKey_lt_of_dup (validFields ps) h []

/-- A first field named `dup`. -/
def dupFieldOne : Field :=
  { name := "dup", type := FieldType.text, label := "First", rules := "" }

/-- A second field also named `dup`. -/
def dupFieldTwo : Field :=
  { name := "dup", type := FieldType.email, label := "Second", rules := "" }

/-- Witness for C10: two valid fields named `dup` yield a default-value
object with strictly fewer keys than fields. -/
theorem duplicate_names_share_key_witness :
    (defaultKeys (validFields [dupFieldOne, dupFieldTwo])).length <
      (validFields [dupFieldOne, dupFieldTwo]).length :=
  (duplicate_names_share_key [dupFieldOne, dupFieldTwo] (by decide)).2.2.2

end FormGen
